import Mathlib

/-!
Shallow embedding of the curriculum knowledge-graph dashboard
(src/app_scnce_ch7_8.py, src/app_ch7_8.py, src/app_ch7.py).

Python dicts are modelled as insertion-ordered association lists, Python
sets as duplicate-free lists, and Python's decimal rounding
(round(x, 1), ties to even) as exact rational rounding at one decimal.
-/

namespace KG

/-- Round a rational to the nearest integer, ties to even
(the rounding Python's builtin round uses). -/
def rhe (q : ℚ) : ℤ :=
  if q - ⌊q⌋ < 1/2 then ⌊q⌋
  else if 1/2 < q - ⌊q⌋ then ⌊q⌋ + 1
  else if ⌊q⌋ % 2 = 0 then ⌊q⌋ else ⌊q⌋ + 1

/-- Python's round(x, 1): round to one decimal digit, ties to even. -/
def round1 (q : ℚ) : ℚ := (rhe (10 * q) : ℚ) / 10

/-- Dictionary lookup with a default, d.get(k, dflt). -/
def lookupD {κ α : Type} [DecidableEq κ] (m : List (κ × α)) (k : κ) (dflt : α) : α :=
  match m with
  | [] => dflt
  | p :: rest => if p.1 = k then p.2 else lookupD rest k dflt

/-- Python d.setdefault(k, v): insert (k, v) at the end when k is absent. -/
def setdefaultD {κ α : Type} [DecidableEq κ] (m : List (κ × α)) (k : κ) (v : α) :
    List (κ × α) :=
  match m with
  | [] => [(k, v)]
  | p :: rest => if p.1 = k then p :: rest else p :: setdefaultD rest k v

/-- In-place update of the value stored under an existing key, d[k] = f d[k]. -/
def updateD {κ α : Type} [DecidableEq κ] (m : List (κ × α)) (k : κ) (f : α → α) :
    List (κ × α) :=
  m.map (fun p => if p.1 = k then (p.1, f p.2) else p)

/-- Python d.setdefault(k, v0) followed by mutating the entry with f
(the get-or-insert-then-modify idiom of the hierarchy builders). -/
def upsert {κ α : Type} [DecidableEq κ] (m : List (κ × α)) (k : κ) (v0 : α) (f : α → α) :
    List (κ × α) :=
  match m with
  | [] => [(k, f v0)]
  | p :: rest => if p.1 = k then (p.1, f p.2) :: rest else p :: upsert rest k v0 f

/-- A concept record, keeping the fields the claimed computations read
(concept_name, domain, strand, interconnections); purely presentational
fields (explanation text, chapter references, colours, fonts) are omitted
because no claimed computation reads them. -/
structure Concept where
  concept_name : String
  domain : String
  strand : String
  interconnections : List String
  deriving DecidableEq, Repr

/-- The persisted learned store: grade -> domain -> list of concept names,
mirroring the JSON file shape used by load_learned_concepts. -/
abbrev LearnedStore := List (String × List (String × List String))

/-- The first loop of compute_domain_progress: per-domain concept counts,
in first-appearance order (domain_totals). -/
def domainTotals (cs : List Concept) : List (String × Nat) :=
  cs.foldl (fun m c => upsert m c.domain 0 (fun n => n + 1)) []

/-- compute_domain_progress from src/app_scnce_ch7_8.py (lines 148-163):
for every domain appearing among the concepts, round1 of
100 * (number of distinct recorded learned names for the domain) / total. -/
def compute_domain_progress (cs : List Concept) (store : LearnedStore) (grade : String) :
    List (String × ℚ) :=
  (domainTotals cs).map
    (fun p => (p.1, round1 (((lookupD ((lookupD store grade []).map
      (fun q => (q.1, q.2.dedup.length))) p.1 0 : ℚ) / (p.2 : ℚ)) * 100)))

/-- Names of the concepts that belong to a given domain. -/
def domainConceptNames (cs : List Concept) (d : String) : List String :=
  (cs.filter (fun c => c.domain = d)).map Concept.concept_name

/-- Modelled from the spec (section 4.4): the progress formula as the
specification words it, with the learned set intersected with the concepts
actually belonging to the domain. Used only to compare against
compute_domain_progress. -/
def progressSpec (cs : List Concept) (store : LearnedStore) (grade : String) :
    List (String × ℚ) :=
  (domainTotals cs).map
    (fun p =>
      (p.1, round1 (((((lookupD (lookupD store grade []) p.1 []).dedup.filter
        (fun x => x ∈ domainConceptNames cs p.1)).length : ℚ) / (p.2 : ℚ)) * 100)))

/-- The learned list recorded for grade g and domain d (empty when absent). -/
def llOf (s : LearnedStore) (g d : String) : List String :=
  lookupD (lookupD s g []) d []

/-- The store after the two setdefault calls that precede the mark-learned
checkbox handler (src/app_scnce_ch7_8.py lines 200 and 386): the grade and
domain entries are guaranteed to exist, with empty defaults. -/
def markBase (s : LearnedStore) (g d : String) : LearnedStore :=
  updateD (setdefaultD s g []) g (fun m => setdefaultD m d [])

/-- The mark-learned checkbox handler of src/app_scnce_ch7_8.py
(lines 386-401): append / remove the concept and save exactly when the
requested value differs from the current membership. The returned Bool
records whether save_learned_concepts was called. -/
def mark_learned (s : LearnedStore) (g d c : String) (req : Bool) :
    LearnedStore × Bool :=
  if req then
    if c ∈ llOf (markBase s g d) g d then (markBase s g d, false)
    else (updateD (markBase s g d) g (fun m => updateD m d (fun l => l ++ [c])), true)
  else
    if c ∈ llOf (markBase s g d) g d then
      (updateD (markBase s g d) g (fun m => updateD m d (fun l => l.erase c)), true)
    else (markBase s g d, false)

/-- A Python value as the click payloads and raw activity records carry it
(strings, integers, lists, string-keyed dicts, None). -/
inductive PyVal : Type
  | str (s : String)
  | int (n : Int)
  | list (xs : List PyVal)
  | dict (entries : List (String × PyVal))
  | null

/-- Python truthiness of a value (the if selected.get(..) tests). -/
def truthy : PyVal → Bool
  | .str s => s ≠ ""
  | .int n => n ≠ 0
  | .list [] => false
  | .list (_ :: _) => true
  | .dict [] => false
  | .dict (_ :: _) => true
  | .null => false

/-- Python d.get(k): the stored value, or None when the key is absent. -/
def dictGet (m : List (String × PyVal)) (k : String) : PyVal :=
  lookupD m k .null

/-- Python v[0]: head of a list or first character of a string; anything
else raises (modelled as an error value). -/
def pyIndex0 : PyVal → Except String PyVal
  | .list (x :: _) => .ok x
  | .list [] => .error "IndexError"
  | .str s =>
    match s.data with
    | [] => .error "IndexError"
    | c :: _ => .ok (.str (String.mk [c]))
  | .dict _ => .error "KeyError"
  | _ => .error "TypeError"

/-- The clicked value extracted by the click-normalization branches of
src/app_scnce_ch7_8.py (lines 334-340): a dict with a truthy nodes entry
yields its first element, a non-empty list its head, a string itself,
and anything else None. -/
def rawClicked : PyVal → Except String PyVal
  | .dict m => if truthy (dictGet m "nodes") then pyIndex0 (dictGet m "nodes") else .ok .null
  | .list (x :: _) => .ok x
  | .list [] => .ok .null
  | .str s => .ok (.str s)
  | _ => .ok .null

/-- Whether a string carries the concept tier marker (s.startswith). -/
def startsWithConcept (s : String) : Bool :=
  List.isPrefixOf "concept::".toList s.data

/-- Remove every occurrence of the concept tier marker, scanning left to
right, as Python's s.replace does; fuel-driven so it reduces structurally. -/
def stripAllAux : Nat → List Char → List Char
  | 0, cs => cs
  | _ + 1, [] => []
  | n + 1, c :: rest =>
    if List.isPrefixOf "concept::".toList (c :: rest) then
      stripAllAux n ((c :: rest).drop 9)
    else c :: stripAllAux n rest

/-- Python clicked.replace of the concept tier marker with the empty string. -/
def replaceConcept (s : String) : String :=
  String.mk (stripAllAux s.data.length s.data)

/-- Click normalization (src/app_scnce_ch7_8.py lines 334-343): the clicked
value yields a concept name exactly when it is a string carrying the concept
tier marker; otherwise null. Errors model Python exceptions. -/
def normalize_click (selected : PyVal) : Except String (Option String) :=
  match rawClicked selected with
  | .error e => .error e
  | .ok (.str s) =>
    if startsWithConcept s then .ok (some (replaceConcept s)) else .ok none
  | .ok _ => .ok none

/-- The four raw payload shapes the specification lists for normalize_click:
an object with a nodes list, a bare list, a bare string, and an object
carrying a node or id key (and no nodes entry). -/
inductive AcceptedShape : PyVal → Prop
  | nodesList (m : List (String × PyVal)) (xs : List PyVal)
      (h : dictGet m "nodes" = .list xs) : AcceptedShape (.dict m)
  | bareList (xs : List PyVal) : AcceptedShape (.list xs)
  | bareStr (s : String) : AcceptedShape (.str s)
  | nodeKey (m : List (String × PyVal)) (v : PyVal)
      (hno : dictGet m "nodes" = .null)
      (hkey : dictGet m "node" = v ∨ dictGet m "id" = v) : AcceptedShape (.dict m)

/-- The session-state click update (src/app_scnce_ch7_8.py lines 342-343):
the selection changes only when the clicked value is a string carrying the
concept tier marker, in which case the stripped name is stored. -/
def clickUpdate (sel : Option String) (p : PyVal) : Except String (Option String) :=
  match rawClicked p with
  | .error e => .error e
  | .ok (.str s) =>
    if startsWithConcept s then .ok (some (replaceConcept s)) else .ok sel
  | .ok _ => .ok sel

/-- The session-state re-validation at the top of a rerun
(src/app_scnce_ch7_8.py lines 205-208): a selection absent from the
current concept names is cleared. -/
def revalidate (sel : Option String) (names : List String) : Option String :=
  match sel with
  | none => none
  | some s => if s ∈ names then some s else none

/-- One rerun of the selection logic: re-validation against the freshly
loaded grade, then the click update. -/
def rerunSelection (prev : Option String) (names : List String) (p : PyVal) :
    Except String (Option String) :=
  clickUpdate (revalidate prev names) p

/-- Errors a grade file load can produce (absent file, malformed content). -/
inductive LoadError : Type
  | fileMissing (path : String)
  | corrupt (path : String)
  deriving DecidableEq, Repr

/-- The parsed content of one grade knowledge base. -/
structure GradeData where
  concepts : List Concept
  activities : List PyVal

/-- load_all_data (src/app_scnce_ch7_8.py lines 168-176, src/app_ch7_8.py
lines 32-46): open and parse grade 7, then grade 8; a failure at either
step propagates and aborts the whole load. -/
def load_all_data (g7 g8 : Except LoadError GradeData) :
    Except LoadError (List (String × GradeData)) := do
  let d7 ← g7
  let d8 ← g8
  pure [("7", d7), ("8", d8)]

/-- The strict activity cleaning of src/app_ch7.py (lines 32-35): keep only
dict records carrying both an activity_name and a parent_concept key. -/
def actClean : PyVal → Bool
  | .dict m =>
    (m.find? (fun p => p.1 = "activity_name")).isSome &&
    (m.find? (fun p => p.1 = "parent_concept")).isSome
  | _ => false

/-- The cleaned activity list of src/app_ch7.py. -/
def cleanActivities (raw : List PyVal) : List PyVal :=
  raw.filter actClean

/-- The parent_concept field of an activity record. -/
def actParent : PyVal → PyVal
  | .dict m => dictGet m "parent_concept"
  | _ => .null

/-- The per-concept linked-activities listing of src/app_ch7.py
(lines 68-71): cleaned activities whose parent is the selected concept. -/
def linked_activities (raw : List PyVal) (sel : String) : List PyVal :=
  (cleanActivities raw).filter
    (fun a =>
      match actParent a with
      | .str s => s == sel
      | _ => false)

/-- The unlinked-activities data-quality report of src/app_ch7.py
(lines 87-90): cleaned activities whose parent is not a known concept name. -/
def unlinked_activities (raw : List PyVal) (names : List String) : List PyVal :=
  (cleanActivities raw).filter
    (fun a =>
      match actParent a with
      | .str s => !(names.contains s)
      | _ => true)

/-- A graph node as handed to the rendering widget, keeping the identifier
and display label (the visual hints - shape, size, colour, border, font -
are presentation only and no claimed property reads them). -/
structure GNode where
  id : String
  label : String
  deriving DecidableEq, Repr

/-- A graph edge as handed to the rendering widget (colour hint omitted). -/
structure GEdge where
  source : String
  target : String
  deriving DecidableEq, Repr

/-- Python set.add modelled on duplicate-free lists (insertion order kept;
set iteration order is unspecified in Python, and every claimed property
is order independent). -/
def addStrand (l : List String) (s : String) : List String :=
  if s ∈ l then l else l ++ [s]

/-- The domains dict of src/app_scnce_ch7_8.py (lines 216-217):
domain -> set of its strands. -/
def buildDomains (cs : List Concept) : List (String × List String) :=
  cs.foldl (fun m c => upsert m c.domain [] (fun l => addStrand l c.strand)) []

/-- The strands dict of src/app_scnce_ch7_8.py (lines 216-218):
(domain, strand) -> list of concept names in record order. -/
def buildStrands (cs : List Concept) : List ((String × String) × List String) :=
  cs.foldl (fun m c => upsert m (c.domain, c.strand) [] (fun l => l ++ [c.concept_name])) []

/-- Domain tier nodes (src/app_scnce_ch7_8.py lines 229-237). -/
def domainNodes (cs : List Concept) : List GNode :=
  (buildDomains cs).map (fun p => { id := "domain::" ++ p.1, label := p.1 })

/-- Strand tier nodes (src/app_scnce_ch7_8.py lines 239-247): one per
distinct (domain, strand) pair, the identifier formed from the strand
name alone. -/
def strandNodes (cs : List Concept) : List GNode :=
  (buildStrands cs).map (fun p => { id := "strand::" ++ p.1.2, label := p.1.2 })

/-- Concept tier nodes (src/app_scnce_ch7_8.py lines 249-263): one per
concept record. -/
def conceptNodes (cs : List Concept) : List GNode :=
  cs.map (fun c => { id := "concept::" ++ c.concept_name, label := c.concept_name })

/-- All nodes, in construction order. -/
def buildNodes (cs : List Concept) : List GNode :=
  domainNodes cs ++ strandNodes cs ++ conceptNodes cs

/-- The concept-name set of the current grade (concept_map keys). -/
def conceptNames (cs : List Concept) : List String :=
  cs.map Concept.concept_name

/-- Domain-to-strand tree edges (src/app_scnce_ch7_8.py lines 270-276). -/
def domainStrandEdges (cs : List Concept) : List GEdge :=
  (buildDomains cs).flatMap
    (fun p => p.2.map (fun s => { source := "domain::" ++ p.1, target := "strand::" ++ s }))

/-- Strand-to-concept tree edges (src/app_scnce_ch7_8.py lines 278-284). -/
def strandConceptEdges (cs : List Concept) : List GEdge :=
  (buildStrands cs).flatMap
    (fun p => p.2.map (fun n => { source := "strand::" ++ p.1.2, target := "concept::" ++ n }))

/-- Lateral interconnection edges (src/app_scnce_ch7_8.py lines 286-293):
one per declared interconnection whose target is a known concept name. -/
def lateralEdges (cs : List Concept) : List GEdge :=
  cs.flatMap
    (fun c =>
      (c.interconnections.filter (fun l => l ∈ conceptNames cs)).map
        (fun l => { source := "concept::" ++ c.concept_name, target := "concept::" ++ l }))

/-- All edges, in construction order. -/
def buildEdges (cs : List Concept) : List GEdge :=
  domainStrandEdges cs ++ strandConceptEdges cs ++ lateralEdges cs

/-! Rounding lemmas. -/

theorem le_rhe (q : ℚ) : q - 1/2 ≤ (rhe q : ℚ) := by
  have h1 : ((⌊q⌋ : ℤ) : ℚ) ≤ q := Int.floor_le q
  have h2 : q < ((⌊q⌋ : ℤ) : ℚ) + 1 := Int.lt_floor_add_one q
  unfold rhe
  split_ifs with ha hb hc <;> push_cast <;> linarith

theorem rhe_le (q : ℚ) : (rhe q : ℚ) ≤ q + 1/2 := by
  have h1 : ((⌊q⌋ : ℤ) : ℚ) ≤ q := Int.floor_le q
  have h2 : q < ((⌊q⌋ : ℤ) : ℚ) + 1 := Int.lt_floor_add_one q
  unfold rhe
  split_ifs with ha hb hc <;> push_cast <;> linarith

theorem rhe_intCast (n : ℤ) : rhe (n : ℚ) = n := by
  unfold rhe
  rw [Int.floor_intCast]
  simp

theorem round1_strict {a b : ℚ} (h : 1/10 < b - a) : round1 a < round1 b := by
  have hb := le_rhe (10 * b)
  have ha := rhe_le (10 * a)
  have : (rhe (10 * a) : ℚ) < (rhe (10 * b) : ℚ) := by linarith
  have hz : rhe (10 * a) < rhe (10 * b) := by exact_mod_cast this
  unfold round1
  have : (rhe (10 * a) : ℚ) < (rhe (10 * b) : ℚ) := by exact_mod_cast hz
  linarith

theorem round1_int_div_ten (n : ℤ) : round1 ((n : ℚ) / 10) = (n : ℚ) / 10 := by
  unfold round1
  have h : (10 : ℚ) * ((n : ℚ) / 10) = (n : ℚ) := by ring
  rw [h, rhe_intCast]

/-! Association-list lemmas. -/

theorem lookupD_setdefaultD_self {κ α : Type} [DecidableEq κ]
    (m : List (κ × α)) (k : κ) (v : α) :
    lookupD (setdefaultD m k v) k v = lookupD m k v := by
  induction m with
  | nil => simp [lookupD, setdefaultD]
  | cons p rest ih =>
    by_cases hpk : p.1 = k <;> simp [lookupD, setdefaultD, hpk, ih]

theorem lookupD_setdefaultD_ne {κ α : Type} [DecidableEq κ]
    (m : List (κ × α)) (k k' : κ) (v : α) (w : α) (h : k' ≠ k) :
    lookupD (setdefaultD m k v) k' w = lookupD m k' w := by
  induction m with
  | nil => simp [lookupD, setdefaultD, Ne.symm h]
  | cons p rest ih =>
    by_cases hpk : p.1 = k
    · simp [setdefaultD, hpk]
    · by_cases hpk' : p.1 = k'
      · simp [lookupD, setdefaultD, hpk, hpk', h]
      · simpa [lookupD, setdefaultD, hpk, hpk'] using ih

theorem mem_keys_setdefaultD {κ α : Type} [DecidableEq κ]
    (m : List (κ × α)) (k : κ) (v : α) :
    k ∈ (setdefaultD m k v).map Prod.fst := by
  induction m with
  | nil => simp [setdefaultD]
  | cons p rest ih =>
    by_cases hpk : p.1 = k <;> simp [setdefaultD, hpk, ih]

theorem keys_updateD {κ α : Type} [DecidableEq κ]
    (m : List (κ × α)) (k : κ) (f : α → α) :
    (updateD m k f).map Prod.fst = m.map Prod.fst := by
  induction m with
  | nil => simp [updateD]
  | cons p rest ih =>
    by_cases hpk : p.1 = k <;>
      simpa [updateD, hpk] using congrArg (List.cons p.1) ih

theorem lookupD_updateD_self {κ α : Type} [DecidableEq κ]
    (m : List (κ × α)) (k : κ) (f : α → α) (w : α)
    (h : k ∈ m.map Prod.fst) :
    lookupD (updateD m k f) k w = f (lookupD m k w) := by
  induction m with
  | nil => simp at h
  | cons p rest ih =>
    by_cases hpk : p.1 = k
    · simp [updateD, lookupD, hpk]
    · have h' : k ∈ rest.map Prod.fst := by
        rcases List.mem_map.mp h with ⟨q, hq, hqk⟩
        rcases List.mem_cons.mp hq with rfl | hq'
        · exact absurd hqk hpk
        · exact List.mem_map.mpr ⟨q, hq', hqk⟩
      simpa [updateD, lookupD, hpk] using ih h'

theorem lookupD_updateD_ne {κ α : Type} [DecidableEq κ]
    (m : List (κ × α)) (k k' : κ) (f : α → α) (w : α) (h : k' ≠ k) :
    lookupD (updateD m k f) k' w = lookupD m k' w := by
  induction m with
  | nil => simp [updateD, lookupD]
  | cons p rest ih =>
    by_cases hpk : p.1 = k
    · simpa [updateD, lookupD, hpk, Ne.symm h] using ih
    · by_cases hpk' : p.1 = k'
      · simp [updateD, lookupD, hpk, hpk', h]
      · simpa [updateD, lookupD, hpk, hpk'] using ih

theorem lookupD_upsert_self {κ α : Type} [DecidableEq κ]
    (m : List (κ × α)) (k : κ) (v0 : α) (f : α → α) :
    lookupD (upsert m k v0 f) k v0 = f (lookupD m k v0) := by
  induction m with
  | nil => simp [lookupD, upsert]
  | cons p rest ih =>
    by_cases hpk : p.1 = k <;> simp [lookupD, upsert, hpk, ih]

theorem lookupD_upsert_ne {κ α : Type} [DecidableEq κ]
    (m : List (κ × α)) (k k' : κ) (v0 : α) (f : α → α) (w : α) (h : k' ≠ k) :
    lookupD (upsert m k v0 f) k' w = lookupD m k' w := by
  induction m with
  | nil => simp [lookupD, upsert, Ne.symm h]
  | cons p rest ih =>
    by_cases hpk : p.1 = k
    · simp [lookupD, upsert, hpk, Ne.symm h]
    · by_cases hpk' : p.1 = k'
      · simp [lookupD, upsert, hpk, hpk', h]
      · simpa [lookupD, upsert, hpk, hpk'] using ih

theorem mem_keys_upsert {κ α : Type} [DecidableEq κ]
    (m : List (κ × α)) (k k' : κ) (v0 : α) (f : α → α) :
    k' ∈ (upsert m k v0 f).map Prod.fst ↔ k' ∈ m.map Prod.fst ∨ k' = k := by
  induction m with
  | nil => simp [upsert]
  | cons p rest ih =>
    by_cases hpk : p.1 = k <;> simp [upsert, hpk, ih] <;> tauto

theorem nodup_keys_upsert {κ α : Type} [DecidableEq κ]
    (m : List (κ × α)) (k : κ) (v0 : α) (f : α → α)
    (h : (m.map Prod.fst).Nodup) :
    ((upsert m k v0 f).map Prod.fst).Nodup := by
  induction m with
  | nil => simp [upsert]
  | cons p rest ih =>
    simp only [List.map_cons, List.nodup_cons] at h
    by_cases hpk : p.1 = k
    · simpa [upsert, hpk, List.nodup_cons] using h
    · simp only [upsert, if_neg hpk, List.map_cons, List.nodup_cons]
      refine ⟨?_, ih h.2⟩
      intro hmem
      rcases (mem_keys_upsert rest k p.1 v0 f).mp hmem with hr | hk
      · exact h.1 hr
      · exact hpk hk

/-! Folded-upsert lemmas, shared by the totals and hierarchy builders. -/

theorem foldl_upsert_lookup {ι κ α : Type} [DecidableEq κ] (keyf : ι → κ) (v0 : α)
    (g : ι → α → α) (cs : List ι) (acc : List (κ × α)) (k : κ) :
    lookupD (cs.foldl (fun m c => upsert m (keyf c) v0 (g c)) acc) k v0
      = (cs.filter (fun c => keyf c = k)).foldl (fun a c => g c a) (lookupD acc k v0) := by
  induction cs generalizing acc with
  | nil => rfl
  | cons c rest ih =>
    by_cases hc : keyf c = k
    · rw [List.foldl_cons, ih, List.filter_cons_of_pos (by simpa using hc), List.foldl_cons,
        ← hc, lookupD_upsert_self]
    · rw [List.foldl_cons, ih, List.filter_cons_of_neg (by simpa using hc),
        lookupD_upsert_ne _ _ _ _ _ _ (Ne.symm hc)]

theorem foldl_upsert_mem_keys {ι κ α : Type} [DecidableEq κ] (keyf : ι → κ) (v0 : α)
    (g : ι → α → α) (cs : List ι) (acc : List (κ × α)) (k : κ) :
    k ∈ (cs.foldl (fun m c => upsert m (keyf c) v0 (g c)) acc).map Prod.fst
      ↔ k ∈ acc.map Prod.fst ∨ k ∈ cs.map keyf := by
  induction cs generalizing acc with
  | nil => simp
  | cons c rest ih =>
    simp only [List.foldl_cons, List.map_cons, List.mem_cons]
    rw [ih, mem_keys_upsert]
    tauto

theorem foldl_upsert_nodup_keys {ι κ α : Type} [DecidableEq κ] (keyf : ι → κ) (v0 : α)
    (g : ι → α → α) (cs : List ι) (acc : List (κ × α))
    (h : (acc.map Prod.fst).Nodup) :
    ((cs.foldl (fun m c => upsert m (keyf c) v0 (g c)) acc).map Prod.fst).Nodup := by
  induction cs generalizing acc with
  | nil => exact h
  | cons c rest ih => exact ih _ (nodup_keys_upsert _ _ _ _ h)

theorem foldl_add_one {ι : Type} (l : List ι) (n : Nat) :
    l.foldl (fun a _ => a + 1) n = n + l.length := by
  induction l generalizing n with
  | nil => simp
  | cons c rest ih => simp [ih, Nat.add_assoc, Nat.add_comm 1]

theorem foldl_append_map {ι α : Type} (f : ι → α) (l : List ι) (init : List α) :
    l.foldl (fun a c => a ++ [f c]) init = init ++ l.map f := by
  induction l generalizing init with
  | nil => simp
  | cons c rest ih => simp [ih]

theorem mem_addStrand (l : List String) (x s : String) :
    s ∈ addStrand l x ↔ s ∈ l ∨ s = x := by
  unfold addStrand
  by_cases hx : x ∈ l
  · simp only [if_pos hx]
    constructor
    · exact Or.inl
    · rintro (h | rfl) <;> [exact h; exact hx]
  · simp [if_neg hx]

theorem nodup_addStrand (l : List String) (x : String) (h : l.Nodup) :
    (addStrand l x).Nodup := by
  unfold addStrand
  by_cases hx : x ∈ l
  · simpa [if_pos hx] using h
  · simp [if_neg hx, List.nodup_append, h, hx]

theorem mem_foldl_addStrand {ι : Type} (f : ι → String) (l : List ι)
    (init : List String) (s : String) :
    s ∈ l.foldl (fun a c => addStrand a (f c)) init ↔ s ∈ init ∨ s ∈ l.map f := by
  induction l generalizing init with
  | nil => simp
  | cons c rest ih =>
    simp only [List.foldl_cons, List.map_cons, List.mem_cons]
    rw [ih, mem_addStrand]
    tauto

theorem nodup_foldl_addStrand {ι : Type} (f : ι → String) (l : List ι)
    (init : List String) (h : init.Nodup) :
    (l.foldl (fun a c => addStrand a (f c)) init).Nodup := by
  induction l generalizing init with
  | nil => exact h
  | cons c rest ih => exact ih _ (nodup_addStrand _ _ h)

/-! Builder characterisations. -/

theorem lookupD_domainTotals (cs : List Concept) (d : String) :
    lookupD (domainTotals cs) d 0 = (cs.filter (fun c => c.domain = d)).length := by
  unfold domainTotals
  rw [foldl_upsert_lookup]
  simp [lookupD, foldl_add_one]

theorem mem_keys_domainTotals (cs : List Concept) (d : String) :
    d ∈ (domainTotals cs).map Prod.fst ↔ d ∈ cs.map Concept.domain := by
  unfold domainTotals
  rw [foldl_upsert_mem_keys]
  simp [lookupD]

theorem nodup_keys_domainTotals (cs : List Concept) :
    ((domainTotals cs).map Prod.fst).Nodup := by
  unfold domainTotals
  exact foldl_upsert_nodup_keys _ _ _ _ _ (by simp)

theorem buildDomains_value (cs : List Concept) (d : String) :
    lookupD (buildDomains cs) d []
      = (cs.filter (fun c => c.domain = d)).foldl (fun a c => addStrand a c.strand) [] := by
  unfold buildDomains
  rw [foldl_upsert_lookup]
  simp [lookupD]

theorem mem_buildDomains_value (cs : List Concept) (d s : String) :
    s ∈ lookupD (buildDomains cs) d []
      ↔ s ∈ (cs.filter (fun c => c.domain = d)).map Concept.strand := by
  rw [buildDomains_value, mem_foldl_addStrand]
  simp

theorem nodup_buildDomains_value (cs : List Concept) (d : String) :
    (lookupD (buildDomains cs) d []).Nodup := by
  rw [buildDomains_value]
  exact nodup_foldl_addStrand _ _ _ (by simp)

theorem mem_keys_buildDomains (cs : List Concept) (d : String) :
    d ∈ (buildDomains cs).map Prod.fst ↔ d ∈ cs.map Concept.domain := by
  unfold buildDomains
  rw [foldl_upsert_mem_keys]
  simp [lookupD]

theorem nodup_keys_buildDomains (cs : List Concept) :
    ((buildDomains cs).map Prod.fst).Nodup := by
  unfold buildDomains
  exact foldl_upsert_nodup_keys _ _ _ _ _ (by simp)

theorem buildStrands_value (cs : List Concept) (d s : String) :
    lookupD (buildStrands cs) (d, s) []
      = ((cs.filter (fun c => c.domain = d ∧ c.strand = s)).map Concept.concept_name) := by
  unfold buildStrands
  rw [foldl_upsert_lookup]
  simp only [lookupD, foldl_append_map, List.nil_append]
  congr 1
  apply List.filter_congr
  intro c _
  simp [Prod.ext_iff]

theorem mem_keys_buildStrands (cs : List Concept) (p : String × String) :
    p ∈ (buildStrands cs).map Prod.fst ↔ p ∈ cs.map (fun c => (c.domain, c.strand)) := by
  unfold buildStrands
  rw [foldl_upsert_mem_keys]
  simp [lookupD]

theorem nodup_keys_buildStrands (cs : List Concept) :
    ((buildStrands cs).map Prod.fst).Nodup := by
  unfold buildStrands
  exact foldl_upsert_nodup_keys _ _ _ _ _ (by simp)

/-! Progress lemmas. -/

theorem lookupD_map_pair {κ α β : Type} [DecidableEq κ] (m : List (κ × α))
    (F : κ × α → β) (k : κ) (da : α) (db : β) (h0 : F (k, da) = db) :
    lookupD (m.map (fun p => (p.1, F p))) k db = F (k, lookupD m k da) := by
  induction m with
  | nil => simpa [lookupD] using h0.symm
  | cons p rest ih =>
    by_cases hpk : p.1 = k
    · subst hpk
      simp [lookupD]
    · simpa [lookupD, hpk] using ih

theorem lookupD_map_pair_mem {κ α β : Type} [DecidableEq κ] (m : List (κ × α))
    (F : κ × α → β) (k : κ) (da : α) (w : β) (h : k ∈ m.map Prod.fst) :
    lookupD (m.map (fun p => (p.1, F p))) k w = F (k, lookupD m k da) := by
  induction m with
  | nil => simp at h
  | cons p rest ih =>
    by_cases hpk : p.1 = k
    · subst hpk
      simp [lookupD]
    · have h' : k ∈ rest.map Prod.fst := by
        rcases List.mem_map.mp h with ⟨q, hq, hqk⟩
        rcases List.mem_cons.mp hq with rfl | hq'
        · exact absurd hqk hpk
        · exact List.mem_map.mpr ⟨q, hq', hqk⟩
      simpa [lookupD, hpk] using ih h'

theorem progress_keys (cs : List Concept) (store : LearnedStore) (g d : String) :
    d ∈ (compute_domain_progress cs store g).map Prod.fst ↔ d ∈ cs.map Concept.domain := by
  unfold compute_domain_progress
  rw [List.map_map]
  have he : (Prod.fst ∘ fun p : String × Nat =>
      (p.1, round1 (((lookupD ((lookupD store g []).map
        (fun q => (q.1, q.2.dedup.length))) p.1 0 : ℚ) / (p.2 : ℚ)) * 100))) = Prod.fst := rfl
  rw [he]
  exact mem_keys_domainTotals cs d

theorem progress_value (cs : List Concept) (store : LearnedStore) (g d : String)
    (h : d ∈ cs.map Concept.domain) :
    lookupD (compute_domain_progress cs store g) d 0
      = round1 ((((llOf store g d).dedup.length : ℚ)
          / (((cs.filter (fun c => c.domain = d)).length : ℚ))) * 100) := by
  unfold compute_domain_progress
  rw [lookupD_map_pair_mem (domainTotals cs)
    (fun p => round1 (((lookupD ((lookupD store g []).map
      (fun q => (q.1, q.2.dedup.length))) p.1 0 : ℚ) / (p.2 : ℚ)) * 100))
    d 0 0 ((mem_keys_domainTotals cs d).mpr h)]
  dsimp only
  rw [lookupD_map_pair (lookupD store g [])
    (fun p => ((p.2.dedup.length : ℚ))) d [] 0 (by simp)]
  dsimp only
  rw [lookupD_domainTotals]
  rfl

theorem progressSpec_value (cs : List Concept) (store : LearnedStore) (g d : String)
    (h : d ∈ cs.map Concept.domain) :
    lookupD (progressSpec cs store g) d 0
      = round1 (((((llOf store g d).dedup.filter
            (fun x => x ∈ domainConceptNames cs d)).length : ℚ)
          / (((cs.filter (fun c => c.domain = d)).length : ℚ))) * 100) := by
  unfold progressSpec
  rw [lookupD_map_pair_mem (domainTotals cs)
    (fun p => round1 (((((lookupD (lookupD store g []) p.1 []).dedup.filter
        (fun x => x ∈ domainConceptNames cs p.1)).length : ℚ) / (p.2 : ℚ)) * 100))
    d 0 0 ((mem_keys_domainTotals cs d).mpr h)]
  dsimp only
  rw [lookupD_domainTotals]
  rfl

theorem dedup_length_append_new (l : List String) (a : String) (h : a ∉ l) :
    (l ++ [a]).dedup.length = l.dedup.length + 1 := by
  rw [← List.card_toFinset, ← List.card_toFinset, List.toFinset_append]
  have he : l.toFinset ∪ [a].toFinset = insert a l.toFinset := by
    simp [Finset.union_comm, Finset.insert_eq]
  rw [he, Finset.card_insert_of_not_mem (by simpa using h)]

/-! Learned-store state lemmas for mark_learned. -/

theorem llOf_markBase (s : LearnedStore) (g d g' d' : String) :
    llOf (markBase s g d) g' d' = llOf s g' d' := by
  unfold llOf markBase
  by_cases hg : g' = g
  · subst hg
    rw [lookupD_updateD_self _ _ _ _ (mem_keys_setdefaultD s g' []),
      lookupD_setdefaultD_self]
    by_cases hd : d' = d
    · subst hd
      rw [lookupD_setdefaultD_self]
    · rw [lookupD_setdefaultD_ne _ _ _ _ _ hd]
  · rw [lookupD_updateD_ne _ _ _ _ _ hg, lookupD_setdefaultD_ne _ _ _ _ _ hg]

theorem mem_keys_markBase (s : LearnedStore) (g d : String) :
    g ∈ (markBase s g d).map Prod.fst := by
  unfold markBase
  rw [keys_updateD]
  exact mem_keys_setdefaultD s g []

theorem lookupD_markBase_self (s : LearnedStore) (g d : String) :
    lookupD (markBase s g d) g [] = setdefaultD (lookupD s g []) d [] := by
  unfold markBase
  rw [lookupD_updateD_self _ _ _ _ (mem_keys_setdefaultD s g []),
    lookupD_setdefaultD_self]

theorem mark_learned_true_ll (s : LearnedStore) (g d c : String)
    (h : c ∉ llOf s g d) :
    llOf (mark_learned s g d c true).1 g d = llOf s g d ++ [c] := by
  unfold mark_learned
  rw [if_pos rfl, if_neg (by rw [llOf_markBase]; exact h)]
  have hmd : d ∈ (lookupD (markBase s g d) g []).map Prod.fst := by
    rw [lookupD_markBase_self]
    exact mem_keys_setdefaultD _ d []
  unfold llOf
  rw [lookupD_updateD_self _ _ _ _ (mem_keys_markBase s g d),
    lookupD_updateD_self _ _ _ _ hmd]
  exact congrArg (fun l => l ++ [c]) (llOf_markBase s g d g d)

theorem mark_learned_false_ll (s : LearnedStore) (g d c : String)
    (h : c ∈ llOf s g d) :
    llOf (mark_learned s g d c false).1 g d = (llOf s g d).erase c := by
  unfold mark_learned
  rw [if_neg (by simp), if_pos (by rw [llOf_markBase]; exact h)]
  have hmd : d ∈ (lookupD (markBase s g d) g []).map Prod.fst := by
    rw [lookupD_markBase_self]
    exact mem_keys_setdefaultD _ d []
  unfold llOf
  rw [lookupD_updateD_self _ _ _ _ (mem_keys_markBase s g d),
    lookupD_updateD_self _ _ _ _ hmd]
  exact congrArg (fun l => l.erase c) (llOf_markBase s g d g d)

theorem mark_learned_noop_ll (s : LearnedStore) (g d c : String) (req : Bool)
    (h : (req = true ∧ c ∈ llOf s g d) ∨ (req = false ∧ c ∉ llOf s g d)) :
    (mark_learned s g d c req).2 = false
      ∧ ∀ g' d', llOf (mark_learned s g d c req).1 g' d' = llOf s g' d' := by
  unfold mark_learned
  rcases h with ⟨hr, hc⟩ | ⟨hr, hc⟩ <;> subst hr
  · rw [if_pos rfl, if_pos (by rw [llOf_markBase]; exact hc)]
    exact ⟨rfl, fun g' d' => llOf_markBase s g d g' d'⟩
  · rw [if_neg (by simp), if_neg (by rw [llOf_markBase]; exact hc)]
    exact ⟨rfl, fun g' d' => llOf_markBase s g d g' d'⟩

/-! String identifier lemmas: tier-prefixed ids are injective within a tier
and disjoint across tiers. -/

theorem string_data_append (a b : String) : (a ++ b).data = a.data ++ b.data := by
  cases a
  cases b
  rfl

theorem string_append_left_inj (pfx : String) {x y : String}
    (h : pfx ++ x = pfx ++ y) : x = y := by
  have hd := congrArg String.data h
  rw [string_data_append, string_data_append] at hd
  have hxy := List.append_cancel_left hd
  cases x
  cases y
  exact congrArg String.mk hxy

theorem head_data_append (a x : String) (c : Char) (h : a.data.head? = some c) :
    ((a ++ x).data).head? = some c := by
  rw [string_data_append]
  cases ad : a.data with
  | nil => rw [ad] at h; cases h
  | cons hd tl =>
    rw [ad] at h
    rw [List.cons_append]
    simpa using h

theorem append_head_ne {a b : String} (x y : String) (ca cb : Char)
    (ha : a.data.head? = some ca) (hb : b.data.head? = some cb) (hne : ca ≠ cb) :
    a ++ x ≠ b ++ y := by
  intro h
  have h1 := head_data_append a x ca ha
  have h2 := head_data_append b y cb hb
  rw [h, h2] at h1
  exact hne (Option.some.inj h1).symm

theorem domain_id_ne_strand_id (x y : String) : "domain::" ++ x ≠ "strand::" ++ y :=
  append_head_ne x y 'd' 's' rfl rfl (by decide)

theorem domain_id_ne_concept_id (x y : String) : "domain::" ++ x ≠ "concept::" ++ y :=
  append_head_ne x y 'd' 'c' rfl rfl (by decide)

theorem strand_id_ne_concept_id (x y : String) : "strand::" ++ x ≠ "concept::" ++ y :=
  append_head_ne x y 's' 'c' rfl rfl (by decide)

/-! More association-list lemmas, for entries of the hierarchy dicts. -/

theorem lookupD_of_mem_nodup {κ α : Type} [DecidableEq κ] (m : List (κ × α))
    (k : κ) (v : α) (dflt : α) (hnd : (m.map Prod.fst).Nodup) (h : (k, v) ∈ m) :
    lookupD m k dflt = v := by
  induction m with
  | nil => simp at h
  | cons p rest ih =>
    simp only [List.map_cons, List.nodup_cons] at hnd
    rcases List.mem_cons.mp h with rfl | h'
    · simp [lookupD]
    · have hpk : p.1 ≠ k := by
        intro he
        exact hnd.1 (he ▸ List.mem_map.mpr ⟨(k, v), h', rfl⟩)
      simp [lookupD, hpk, ih hnd.2 h']

theorem mem_of_mem_keys {κ α : Type} [DecidableEq κ] (m : List (κ × α))
    (k : κ) (dflt : α) (h : k ∈ m.map Prod.fst) :
    (k, lookupD m k dflt) ∈ m := by
  induction m with
  | nil => simp at h
  | cons p rest ih =>
    by_cases hpk : p.1 = k
    · subst hpk
      simp [lookupD]
    · have h' : k ∈ rest.map Prod.fst := by
        rcases List.mem_map.mp h with ⟨q, hq, hqk⟩
        rcases List.mem_cons.mp hq with rfl | hq'
        · exact absurd hqk hpk
        · exact List.mem_map.mpr ⟨q, hq', hqk⟩
      simp only [lookupD, if_neg hpk]
      exact List.mem_cons_of_mem p (ih h')

theorem values_nodup_buildDomains (cs : List Concept) (p : String × List String)
    (h : p ∈ buildDomains cs) : p.2.Nodup := by
  have hk := nodup_keys_buildDomains cs
  have := lookupD_of_mem_nodup (buildDomains cs) p.1 p.2 [] hk (by simpa using h)
  rw [← this]
  exact nodup_buildDomains_value cs p.1

theorem nodup_pairList {κ α : Type} [DecidableEq κ] (m : List (κ × List α))
    (hk : (m.map Prod.fst).Nodup) (hv : ∀ p ∈ m, p.2.Nodup) :
    (m.flatMap (fun p => p.2.map (fun s => (p.1, s)))).Nodup := by
  induction m with
  | nil => simp
  | cons p rest ih =>
    simp only [List.map_cons, List.nodup_cons] at hk
    rw [List.flatMap_cons, List.nodup_append]
    refine ⟨?_, ih hk.2 (fun q hq => hv q (List.mem_cons_of_mem p hq)), ?_⟩
    · exact (hv p (List.mem_cons_self p rest)).map
        (fun a b hab => (Prod.mk.injEq _ _ _ _).mp hab |>.2)
    · intro q hq hq'
      rcases List.mem_map.mp hq with ⟨s, _, rfl⟩
      rcases List.mem_flatMap.mp hq' with ⟨r, hr, hrq⟩
      rcases List.mem_map.mp hrq with ⟨t, _, het⟩
      have hfst : r.1 = p.1 := ((Prod.mk.injEq _ _ _ _).mp het).1
      exact hk.1 (hfst ▸ List.mem_map.mpr ⟨r, hr, rfl⟩)

/-! Counting names across the strand groups. -/

theorem countP_valuesFlat_upsert {κ : Type} [DecidableEq κ]
    (m : List (κ × List String)) (k : κ) (x : String) (P : String → Bool) :
    ((upsert m k [] (fun l => l ++ [x])).flatMap Prod.snd).countP P
      = (m.flatMap Prod.snd).countP P + (if P x then 1 else 0) := by
  induction m with
  | nil => simp [upsert, List.countP_cons, List.countP_nil]
  | cons p rest ih =>
    by_cases hpk : p.1 = k
    · simp only [upsert, if_pos hpk, List.flatMap_cons, List.countP_append, ih,
        List.countP_cons, List.countP_nil]
      by_cases hx : P x = true
      · simp only [if_pos hx]
        omega
      · simp only [if_neg hx]
        omega
    · simp only [upsert, if_neg hpk, List.flatMap_cons, List.countP_append, ih]
      omega

theorem countP_valuesFlat_buildStrands_aux (cs : List Concept)
    (acc : List ((String × String) × List String)) (P : String → Bool) :
    ((cs.foldl (fun m c => upsert m (c.domain, c.strand) []
        (fun l => l ++ [c.concept_name])) acc).flatMap Prod.snd).countP P
      = (acc.flatMap Prod.snd).countP P + cs.countP (fun c => P c.concept_name) := by
  induction cs generalizing acc with
  | nil => simp
  | cons c rest ih =>
    rw [List.foldl_cons, ih, countP_valuesFlat_upsert]
    by_cases hc : P c.concept_name = true
    · rw [List.countP_cons_of_pos _ _ (by simpa using hc), if_pos hc]
      omega
    · rw [List.countP_cons_of_neg _ _ (by simpa using hc), if_neg hc]
      omega

theorem countP_valuesFlat_buildStrands (cs : List Concept) (P : String → Bool) :
    ((buildStrands cs).flatMap Prod.snd).countP P
      = cs.countP (fun c => P c.concept_name) := by
  unfold buildStrands
  rw [countP_valuesFlat_buildStrands_aux]
  simp

theorem nodup_valuesFlat_buildStrands (cs : List Concept)
    (h : (cs.map Concept.concept_name).Nodup) :
    ((buildStrands cs).flatMap Prod.snd).Nodup := by
  rw [List.nodup_iff_count_le_one]
  intro a
  have hc : List.count a ((buildStrands cs).flatMap Prod.snd)
      = List.count a (cs.map Concept.concept_name) := by
    show List.countP (· == a) _ = List.countP (· == a) _
    rw [countP_valuesFlat_buildStrands, List.countP_map]
    rfl
  rw [hc]
  exact List.nodup_iff_count_le_one.mp h a

/-! Claim C1. -/

/-- Claim C1, counterexample: with one concept c1 in domain D and a recorded
learned name x that is not a concept of D, compute_domain_progress reports
100 for D while the claimed intersection formula gives 0 — the code does not
intersect the recorded learned names with the concepts of the domain. -/
theorem C1_counterexample :
    compute_domain_progress [⟨"c1", "D", "S", []⟩] [("7", [("D", ["x"])])] "7" = [("D", 100)]
    ∧ progressSpec [⟨"c1", "D", "S", []⟩] [("7", [("D", ["x"])])] "7" = [("D", 0)] :=
  of_decide_eq_true (by with_unfolding_all rfl)

/-- Claim C1, amended: for every domain d present in the concept set
(including domains with no recorded progress) the progress mapping has an
entry; its value is round(100 * |deduplicated learned list of d| / |concepts
of d|, 1) - without intersecting with d's actual concepts - and the divisor
is positive, so no division by zero occurs; whenever every recorded learned
name of d is a concept of d (the write-time invariant), this agrees with
the claimed intersection formula. -/
theorem C1_amended (cs : List Concept) (store : LearnedStore) (g d : String)
    (hd : d ∈ cs.map Concept.domain) :
    d ∈ (compute_domain_progress cs store g).map Prod.fst
    ∧ 0 < (cs.filter (fun c => c.domain = d)).length
    ∧ lookupD (compute_domain_progress cs store g) d 0
        = round1 ((((llOf store g d).dedup.length : ℚ)
            / (((cs.filter (fun c => c.domain = d)).length : ℚ))) * 100)
    ∧ ((∀ x ∈ llOf store g d, x ∈ domainConceptNames cs d) →
        lookupD (compute_domain_progress cs store g) d 0
          = lookupD (progressSpec cs store g) d 0) := by
  refine ⟨(progress_keys cs store g d).mpr hd, ?_, progress_value cs store g d hd, ?_⟩
  · rcases List.mem_map.mp hd with ⟨c, hc, hcd⟩
    have hcf : c ∈ cs.filter (fun c => c.domain = d) :=
      List.mem_filter.mpr ⟨hc, by simp [hcd]⟩
    exact List.length_pos.mpr (List.ne_nil_of_mem hcf)
  · intro hvalid
    rw [progress_value cs store g d hd, progressSpec_value cs store g d hd]
    have hfe : (llOf store g d).dedup.filter (fun x => x ∈ domainConceptNames cs d)
        = (llOf store g d).dedup :=
      List.filter_eq_self.mpr
        (fun x hx => by simpa using hvalid x (List.mem_dedup.mp hx))
    rw [hfe]

/-- Claim C1, witness for the amended theorem at a concrete store whose
learned entries are all valid. -/
theorem C1_witness :
    lookupD (compute_domain_progress [⟨"c1", "D", "S", []⟩]
        [("7", [("D", ["c1"])])] "7") "D" 0
      = lookupD (progressSpec [⟨"c1", "D", "S", []⟩]
        [("7", [("D", ["c1"])])] "7") "D" 0 :=
  (C1_amended [⟨"c1", "D", "S", []⟩] [("7", [("D", ["c1"])])] "7" "D"
    (by decide)).2.2.2 (by decide)

/-! Claim C2. -/

theorem round1_pct_strict (k T : ℕ) (hT0 : 0 < T) (hT : T ≤ 1000) :
    round1 ((k : ℚ) / (T : ℚ) * 100) < round1 (((k : ℚ) + 1) / (T : ℚ) * 100) := by
  rcases eq_or_lt_of_le hT with hTeq | hTlt
  · subst hTeq
    rw [show (k : ℚ) / ((1000 : ℕ) : ℚ) * 100 = ((k : ℤ) : ℚ) / 10 by push_cast; ring,
      show ((k : ℚ) + 1) / ((1000 : ℕ) : ℚ) * 100 = (((k : ℤ) + 1 : ℤ) : ℚ) / 10 by
        push_cast; ring,
      round1_int_div_ten, round1_int_div_ten]
    have hlt : (((k : ℤ)) : ℚ) < (((k : ℤ) + 1 : ℤ) : ℚ) := by push_cast; linarith
    linarith
  · apply round1_strict
    have hTQ : (0 : ℚ) < (T : ℚ) := by exact_mod_cast hT0
    have heq : (((k : ℚ) + 1) / (T : ℚ) * 100) - ((k : ℚ) / (T : ℚ) * 100)
        = 100 / (T : ℚ) := by
      field_simp
      ring
    rw [heq, div_lt_div_iff₀ (by norm_num) hTQ]
    have hTQlT : (T : ℚ) < 1000 := by exact_mod_cast hTlt
    linarith

/-- Claim C2, counterexample: with two concepts c1, c2 in domain D and c1
already recorded learned, marking c1 learned again leaves the percentage at
50 - not strictly larger, although it was not 100 before the mark. -/
theorem C2_counterexample :
    lookupD (compute_domain_progress [⟨"c1", "D", "S", []⟩, ⟨"c2", "D", "S", []⟩]
      (mark_learned [("7", [("D", ["c1"])])] "7" "D" "c1" true).1 "7") "D" 0
      = lookupD (compute_domain_progress [⟨"c1", "D", "S", []⟩, ⟨"c2", "D", "S", []⟩]
          [("7", [("D", ["c1"])])] "7") "D" 0
    ∧ lookupD (compute_domain_progress [⟨"c1", "D", "S", []⟩, ⟨"c2", "D", "S", []⟩]
        [("7", [("D", ["c1"])])] "7") "D" 0 ≠ 100 :=
  of_decide_eq_true (by with_unfolding_all rfl)

/-- Claim C2, amended: if concept c of domain d is not yet recorded learned
and d has at most 1000 concepts, then marking c learned strictly increases
d's percentage, and marking c unlearned afterwards restores exactly the
prior percentage. (As stated the claim fails when c is already learned -
the handler is a no-op - and, because of rounding to one decimal, for
domains with more than 1000 concepts.) -/
theorem C2_amended (cs : List Concept) (s : LearnedStore) (g d c : String)
    (hc : c ∈ domainConceptNames cs d)
    (hnew : c ∉ llOf s g d)
    (hsize : (cs.filter (fun x => x.domain = d)).length ≤ 1000) :
    lookupD (compute_domain_progress cs s g) d 0
      < lookupD (compute_domain_progress cs (mark_learned s g d c true).1 g) d 0
    ∧ lookupD (compute_domain_progress cs
        (mark_learned (mark_learned s g d c true).1 g d c false).1 g) d 0
      = lookupD (compute_domain_progress cs s g) d 0 := by
  have hd : d ∈ cs.map Concept.domain := by
    rcases List.mem_map.mp hc with ⟨x, hx, hxn⟩
    have hx1 := List.mem_filter.mp hx
    have hxd : x.domain = d := by simpa using hx1.2
    exact List.mem_map.mpr ⟨x, hx1.1, hxd⟩
  have hT0 : 0 < (cs.filter (fun x => x.domain = d)).length := by
    rcases List.mem_map.mp hc with ⟨x, hx, _⟩
    exact List.length_pos.mpr (List.ne_nil_of_mem hx)
  have hl1 : llOf (mark_learned s g d c true).1 g d = llOf s g d ++ [c] :=
    mark_learned_true_ll s g d c hnew
  have hcmem : c ∈ llOf (mark_learned s g d c true).1 g d := by
    rw [hl1]
    simp
  have hl2 : llOf (mark_learned (mark_learned s g d c true).1 g d c false).1 g d
      = llOf s g d := by
    rw [mark_learned_false_ll _ g d c hcmem, hl1,
      List.erase_append_right [c] hnew]
    simp
  have hk1 : (llOf s g d ++ [c]).dedup.length = (llOf s g d).dedup.length + 1 :=
    dedup_length_append_new _ c hnew
  constructor
  · rw [progress_value cs s g d hd, progress_value cs _ g d hd, hl1, hk1]
    have := round1_pct_strict (llOf s g d).dedup.length
      (cs.filter (fun x => x.domain = d)).length hT0 hsize
    push_cast
    push_cast at this
    exact this
  · rw [progress_value cs _ g d hd, progress_value cs s g d hd, hl2]

/-- Claim C2, witness for the amended theorem: a fresh store, one concept,
marking it learned raises the percentage from 0 to 100 and unmarking it
restores 0. -/
theorem C2_witness :
    lookupD (compute_domain_progress [⟨"c1", "D", "S", []⟩] [] "7") "D" 0
      < lookupD (compute_domain_progress [⟨"c1", "D", "S", []⟩]
          (mark_learned [] "7" "D" "c1" true).1 "7") "D" 0 :=
  (C2_amended [⟨"c1", "D", "S", []⟩] [] "7" "D" "c1"
    (by decide) (by decide) (by decide)).1

/-! Claim C3. -/

theorem normalize_some_charac (p : PyVal) (n : String)
    (h : normalize_click p = .ok (some n)) :
    ∃ s, rawClicked p = .ok (PyVal.str s) ∧ startsWithConcept s = true
      ∧ n = replaceConcept s := by
  unfold normalize_click at h
  cases hrc : rawClicked p with
  | error e => rw [hrc] at h; cases h
  | ok v =>
    rw [hrc] at h
    cases v with
    | str s =>
      by_cases hsw : startsWithConcept s = true
      · simp only [if_pos hsw, Except.ok.injEq, Option.some.injEq] at h
        exact ⟨s, rfl, hsw, h.symm⟩
      · simp [hsw] at h
    | int m => simp at h
    | list xs => simp at h
    | dict m => simp at h
    | null => simp at h

theorem rawClicked_ok_of_accepted (p : PyVal) (h : AcceptedShape p) :
    ∃ v, rawClicked p = .ok v := by
  cases h with
  | nodesList m xs hx =>
    unfold rawClicked
    dsimp only
    rw [hx]
    cases xs with
    | nil => exact ⟨.null, by simp [truthy]⟩
    | cons x xt => exact ⟨x, by simp [truthy, pyIndex0]⟩
  | bareList xs =>
    cases xs with
    | nil => exact ⟨.null, rfl⟩
    | cons x xt => exact ⟨x, rfl⟩
  | bareStr s => exact ⟨.str s, rfl⟩
  | nodeKey m v hno hkey =>
    exact ⟨.null, by unfold rawClicked; dsimp only; rw [hno]; simp [truthy]⟩

theorem normalize_some_iff (p : PyVal) (n : String) :
    normalize_click p = .ok (some n)
      ↔ ∃ s, rawClicked p = .ok (PyVal.str s) ∧ startsWithConcept s = true
          ∧ n = replaceConcept s := by
  constructor
  · exact normalize_some_charac p n
  · rintro ⟨s, hs, hsw, rfl⟩
    unfold normalize_click
    rw [hs]
    simp [hsw]

theorem normalize_ok_of_rawClicked_ok (p : PyVal) (v : PyVal)
    (h : rawClicked p = .ok v) :
    ∃ r : Option String, normalize_click p = .ok r := by
  unfold normalize_click
  rw [h]
  cases v with
  | str s =>
    by_cases hsw : startsWithConcept s = true
    · exact ⟨some (replaceConcept s), by simp [hsw]⟩
    · exact ⟨none, by simp [hsw]⟩
  | int n => exact ⟨none, rfl⟩
  | list xs => exact ⟨none, rfl⟩
  | dict m => exact ⟨none, rfl⟩
  | null => exact ⟨none, rfl⟩

/-- Claim C3, counterexample: the object-with-a-node-key payload shape is
never extracted - a payload naming a concept-tier node under a "node" key
normalizes to null - and normalization is not idempotent: re-normalizing an
extracted concept name (as a bare string payload) yields null, not the name. -/
theorem C3_counterexample :
    normalize_click (PyVal.dict [("node", PyVal.str "concept::Energy")]) = .ok none
    ∧ normalize_click (PyVal.str "concept::Energy") = .ok (some "Energy")
    ∧ normalize_click (PyVal.str "Energy") = .ok none := by
  refine ⟨rfl, ?_, rfl⟩
  show Except.ok (some (replaceConcept "concept::Energy")) = _
  rfl

/-- Claim C3, amended: over the four accepted payload shapes normalization
is total - it never raises and always returns a concept name or null; a
concept name is returned exactly when the extracted clicked value is a
string carrying the concept tier marker, the name being that string with the
marker stripped; the object-with-a-node-or-id-key shape (no "nodes" entry)
always yields null. Idempotence under re-normalizing the output fails, as
the counterexample shows. -/
theorem C3_amended (p : PyVal) (h : AcceptedShape p) :
    (∃ r : Option String, normalize_click p = .ok r)
    ∧ (∀ n : String, normalize_click p = .ok (some n)
        ↔ ∃ s, rawClicked p = .ok (PyVal.str s) ∧ startsWithConcept s = true
          ∧ n = replaceConcept s)
    ∧ (∀ m, p = PyVal.dict m → dictGet m "nodes" = PyVal.null →
        normalize_click p = .ok none) := by
  refine ⟨?_, fun n => normalize_some_iff p n, ?_⟩
  · rcases rawClicked_ok_of_accepted p h with ⟨v, hv⟩
    exact normalize_ok_of_rawClicked_ok p v hv
  · intro m hm hno
    subst hm
    unfold normalize_click rawClicked
    dsimp only
    rw [hno]
    simp [truthy]

/-- Claim C3, witness for the amended theorem: a bare-string payload
carrying the concept tier marker actually yields the stripped concept
name. -/
theorem C3_witness :
    normalize_click (PyVal.str "concept::X") = .ok (some "X") :=
  ((C3_amended (PyVal.str "concept::X") (AcceptedShape.bareStr "concept::X")).2.1
    "X").mpr ⟨"concept::X", rfl, rfl, by rfl⟩

/-! Claim C9. -/

/-- Claim C9: when the clicked value extracted from the payload is not a
concept-tier identifier (a domain node, a strand node, an empty payload, or
any non-string), the session selection is left unchanged - the previously
selected concept, if any, remains selected. -/
theorem C9_frame (sel : Option String) (p : PyVal) (v : PyVal)
    (hp : rawClicked p = .ok v)
    (hv : ∀ s, v = PyVal.str s → startsWithConcept s = false) :
    clickUpdate sel p = .ok sel := by
  unfold clickUpdate
  rw [hp]
  cases v with
  | str s => simp [hv s rfl]
  | int n => rfl
  | list xs => rfl
  | dict m => rfl
  | null => rfl

/-- Claim C9, witness: a click on a domain-tier node leaves the selection
unchanged. -/
theorem C9_witness :
    clickUpdate (some "Groundwater") (PyVal.str "domain::Physics") = .ok (some "Groundwater") :=
  C9_frame (some "Groundwater") (PyVal.str "domain::Physics") (PyVal.str "domain::Physics")
    rfl (fun s hs => by cases hs; decide)

/-! Claim C6. -/

theorem clickUpdate_cases (sel : Option String) (p : PyVal) (r : Option String)
    (h : clickUpdate sel p = .ok r) :
    r = sel ∨ ∃ s, rawClicked p = .ok (PyVal.str s) ∧ startsWithConcept s = true
      ∧ r = some (replaceConcept s) := by
  unfold clickUpdate at h
  cases hrc : rawClicked p with
  | error e => rw [hrc] at h; cases h
  | ok v =>
    rw [hrc] at h
    cases v with
    | str s =>
      by_cases hsw : startsWithConcept s = true
      · simp only [if_pos hsw, Except.ok.injEq] at h
        exact Or.inr ⟨s, rfl, hsw, h.symm⟩
      · simp only [if_neg hsw, Except.ok.injEq] at h
        exact Or.inl h.symm
    | int n => exact Or.inl (Except.ok.inj h).symm
    | list xs => exact Or.inl (Except.ok.inj h).symm
    | dict m => exact Or.inl (Except.ok.inj h).symm
    | null => exact Or.inl (Except.ok.inj h).symm

theorem revalidate_invariant (prev : Option String) (names : List String) :
    revalidate prev names = none
      ∨ ∃ n, n ∈ names ∧ revalidate prev names = some n := by
  unfold revalidate
  cases prev with
  | none => exact Or.inl rfl
  | some s =>
    by_cases hs : s ∈ names
    · exact Or.inr ⟨s, hs, by simp [hs]⟩
    · exact Or.inl (by simp [hs])

/-- Claim C6, counterexample: the click assignment stores the stripped name
without checking membership in the current grade, so a concept-tier click
payload naming a foreign concept leaves the selection holding a name absent
from the current concept set. -/
theorem C6_counterexample :
    rerunSelection (some "A") ["A"] (PyVal.str "concept::B") = .ok (some "B")
    ∧ "B" ∉ (["A"] : List String) := by
  constructor
  · show clickUpdate (revalidate (some "A") ["A"]) (PyVal.str "concept::B") = _
    rfl
  · decide

/-- Claim C6, amended: provided every concept-tier id delivered by the click
payload resolves to a concept of the current grade (as holds for clicks on
the currently rendered graph), after a rerun the selection is always null or
a name in the current grade's concept set; in particular, switching grade
while a concept named only in the old grade is selected and no click is
delivered clears the selection. -/
theorem C6_amended (prev : Option String) (names : List String) (p : PyVal)
    (r : Option String)
    (hp : ∀ s, rawClicked p = .ok (PyVal.str s) → startsWithConcept s = true →
        replaceConcept s ∈ names)
    (hr : rerunSelection prev names p = .ok r) :
    (r = none ∨ ∃ n, n ∈ names ∧ r = some n)
    ∧ (p = PyVal.null → ∀ st, prev = some st → st ∉ names → r = none) := by
  unfold rerunSelection at hr
  rcases clickUpdate_cases (revalidate prev names) p r hr with hre | ⟨s, hs, hsw, hrs⟩
  · constructor
    · rcases revalidate_invariant prev names with h0 | ⟨n, hn, h0⟩
      · exact Or.inl (hre.trans h0)
      · exact Or.inr ⟨n, hn, hre.trans h0⟩
    · intro _ st hst hstn
      rw [hre, hst]
      unfold revalidate
      simp [hstn]
  · constructor
    · exact Or.inr ⟨replaceConcept s, hp s hs hsw, hrs⟩
    · intro hpn
      rw [hpn] at hs
      exact absurd (Except.ok.inj hs) (fun hx => PyVal.noConfusion hx)

/-- Claim C6, witness: grade switch with a stale selection and no click
clears the selection. -/
theorem C6_witness :
    ((none : Option String) = none
      ∨ ∃ n, n ∈ (["A"] : List String) ∧ (none : Option String) = some n) :=
  (C6_amended (some "B") ["A"] PyVal.null none
    (fun _ hs _ => absurd (Except.ok.inj hs) (fun hx => PyVal.noConfusion hx))
    rfl).1

/-! Claim C7. -/

/-- Claim C7: load_all_data is not failure-independent across grades - when
the grade 7 backing file fails to load, the whole load fails and the intact
grade 8 data is not served, contradicting the specified independence. The
theorem evaluates the loader at the failing input. -/
theorem C7_code_bug_eval (e : LoadError) (d8 : GradeData) :
    load_all_data (Except.error e) (Except.ok d8) = Except.error e := rfl

/-! Claim C8. -/

/-- Claim C8, counterexample: a no-op request (mark unlearned while not
learned) on an empty store performs no write, but the in-memory store is not
left unchanged - the setdefault calls insert an empty learned list for the
grade and domain. -/
theorem C8_counterexample :
    (mark_learned [] "7" "D" "c" false).1 ≠ ([] : LearnedStore)
    ∧ (mark_learned [] "7" "D" "c" false).2 = false := by
  exact ⟨by decide, rfl⟩

/-- Claim C8, amended: when the requested learned value matches the
concept's current state, no write to persistent storage occurs and every
learned list in the store is unchanged (the store itself changes at most by
inserting an empty learned list for the grade and domain). -/
theorem C8_amended (s : LearnedStore) (g d c : String) (req : Bool)
    (h : req = true ↔ c ∈ llOf s g d) :
    (mark_learned s g d c req).2 = false
    ∧ ∀ g' d', llOf (mark_learned s g d c req).1 g' d' = llOf s g' d' := by
  cases req with
  | false =>
    exact mark_learned_noop_ll s g d c false
      (Or.inr ⟨rfl, fun hc => Bool.noConfusion (h.mpr hc)⟩)
  | true =>
    exact mark_learned_noop_ll s g d c true (Or.inl ⟨rfl, h.mp rfl⟩)

/-- Claim C8, witness: marking an already-learned concept learned performs
no write. -/
theorem C8_witness :
    (mark_learned [("7", [("D", ["c1"])])] "7" "D" "c1" true).2 = false :=
  (C8_amended [("7", [("D", ["c1"])])] "7" "D" "c1" true (by decide)).1

/-! Claim C10. -/

/-- Claim C10: an activity record that is not an object or lacks an
activity_name or parent_concept key is excluded by the strict cleaning of
src/app_ch7.py, hence appears neither in any per-concept linked-activities
listing nor in the unlinked-activities data-quality report. -/
theorem C10_excluded (raw : List PyVal) (names : List String) (sel : String)
    (a : PyVal) (h : actClean a = false) :
    a ∉ linked_activities raw sel ∧ a ∉ unlinked_activities raw names := by
  constructor
  · intro hmem
    unfold linked_activities at hmem
    rcases List.mem_filter.mp hmem with ⟨hc, _⟩
    unfold cleanActivities at hc
    rcases List.mem_filter.mp hc with ⟨_, hclean⟩
    rw [h] at hclean
    cases hclean
  · intro hmem
    unfold unlinked_activities at hmem
    rcases List.mem_filter.mp hmem with ⟨hc, _⟩
    unfold cleanActivities at hc
    rcases List.mem_filter.mp hc with ⟨_, hclean⟩
    rw [h] at hclean
    cases hclean

/-- Claim C10, witness: a record with no keys at all is surfaced nowhere. -/
theorem C10_witness :
    PyVal.dict [] ∉ linked_activities [PyVal.dict []] "X"
    ∧ PyVal.dict [] ∉ unlinked_activities [PyVal.dict []] [] :=
  C10_excluded [PyVal.dict []] [] "X" (PyVal.dict []) rfl

/-! Graph-builder characterisation lemmas for the node and edge tiers. -/

theorem mem_entry_buildDomains (cs : List Concept) (d s : String) :
    (∃ v, (d, v) ∈ buildDomains cs ∧ s ∈ v)
      ↔ ∃ c ∈ cs, c.domain = d ∧ c.strand = s := by
  constructor
  · rintro ⟨v, hv, hs⟩
    have hlv := lookupD_of_mem_nodup _ d v [] (nodup_keys_buildDomains cs) hv
    rw [← hlv] at hs
    have hmem := (mem_buildDomains_value cs d s).mp hs
    rcases List.mem_map.mp hmem with ⟨c, hc, hcs⟩
    have hcf := List.mem_filter.mp hc
    exact ⟨c, hcf.1, by simpa using hcf.2, hcs⟩
  · rintro ⟨c, hc, hcd, hcs⟩
    refine ⟨lookupD (buildDomains cs) d [], mem_of_mem_keys _ d [] ?_, ?_⟩
    · exact (mem_keys_buildDomains cs d).mpr (List.mem_map.mpr ⟨c, hc, hcd⟩)
    · exact (mem_buildDomains_value cs d s).mpr
        (List.mem_map.mpr ⟨c, List.mem_filter.mpr ⟨hc, by simp [hcd]⟩, hcs⟩)

theorem mem_entry_buildStrands (cs : List Concept) (d s n : String) :
    (∃ v, ((d, s), v) ∈ buildStrands cs ∧ n ∈ v)
      ↔ ∃ c ∈ cs, c.domain = d ∧ c.strand = s ∧ c.concept_name = n := by
  constructor
  · rintro ⟨v, hv, hn⟩
    have hlv := lookupD_of_mem_nodup _ (d, s) v [] (nodup_keys_buildStrands cs) hv
    rw [← hlv, buildStrands_value] at hn
    rcases List.mem_map.mp hn with ⟨c, hc, hcn⟩
    have hcf := List.mem_filter.mp hc
    have hcds : c.domain = d ∧ c.strand = s := by simpa using hcf.2
    exact ⟨c, hcf.1, hcds.1, hcds.2, hcn⟩
  · rintro ⟨c, hc, hcd, hcs, hcn⟩
    refine ⟨lookupD (buildStrands cs) (d, s) [], mem_of_mem_keys _ (d, s) [] ?_, ?_⟩
    · exact (mem_keys_buildStrands cs (d, s)).mpr
        (List.mem_map.mpr ⟨c, hc, by simp [hcd, hcs]⟩)
    · rw [buildStrands_value]
      exact List.mem_map.mpr ⟨c, List.mem_filter.mpr ⟨hc, by simp [hcd, hcs]⟩, hcn⟩

theorem domainNodes_eq (cs : List Concept) :
    domainNodes cs
      = ((buildDomains cs).map Prod.fst).map (fun d => ⟨"domain::" ++ d, d⟩) := by
  unfold domainNodes
  rw [List.map_map]
  rfl

theorem nodup_domainNodes (cs : List Concept) : (domainNodes cs).Nodup := by
  rw [domainNodes_eq]
  exact (nodup_keys_buildDomains cs).map
    (fun a b hab => congrArg GNode.label hab)

theorem mem_domainNodes (cs : List Concept) (n : GNode) :
    n ∈ domainNodes cs
      ↔ ∃ d, d ∈ cs.map Concept.domain ∧ n = ⟨"domain::" ++ d, d⟩ := by
  rw [domainNodes_eq]
  constructor
  · intro hn
    rcases List.mem_map.mp hn with ⟨d, hd, rfl⟩
    exact ⟨d, (mem_keys_buildDomains cs d).mp hd, rfl⟩
  · rintro ⟨d, hd, rfl⟩
    exact List.mem_map.mpr ⟨d, (mem_keys_buildDomains cs d).mpr hd, rfl⟩

theorem strandNodes_eq (cs : List Concept) :
    strandNodes cs
      = ((buildStrands cs).map Prod.fst).map (fun p => ⟨"strand::" ++ p.2, p.2⟩) := by
  unfold strandNodes
  rw [List.map_map]
  rfl

theorem length_strandNodes (cs : List Concept) :
    (strandNodes cs).length = ((cs.map (fun c => (c.domain, c.strand))).dedup).length := by
  rw [strandNodes_eq, List.length_map]
  have hnd := nodup_keys_buildStrands cs
  have hfin : ((buildStrands cs).map Prod.fst).toFinset
      = (cs.map (fun c => (c.domain, c.strand))).toFinset := by
    apply Finset.ext
    intro p
    simp only [List.mem_toFinset]
    exact mem_keys_buildStrands cs p
  calc ((buildStrands cs).map Prod.fst).length
      = ((buildStrands cs).map Prod.fst).dedup.length := by rw [hnd.dedup]
    _ = ((buildStrands cs).map Prod.fst).toFinset.card := (List.card_toFinset _).symm
    _ = (cs.map (fun c => (c.domain, c.strand))).toFinset.card := by rw [hfin]
    _ = ((cs.map (fun c => (c.domain, c.strand))).dedup).length := List.card_toFinset _

theorem mem_strandNodes (cs : List Concept) (n : GNode) :
    n ∈ strandNodes cs
      ↔ ∃ p, p ∈ cs.map (fun c => (c.domain, c.strand)) ∧ n = ⟨"strand::" ++ p.2, p.2⟩ := by
  rw [strandNodes_eq]
  constructor
  · intro hn
    rcases List.mem_map.mp hn with ⟨p, hp, rfl⟩
    exact ⟨p, (mem_keys_buildStrands cs p).mp hp, rfl⟩
  · rintro ⟨p, hp, rfl⟩
    exact List.mem_map.mpr ⟨p, (mem_keys_buildStrands cs p).mpr hp, rfl⟩

theorem conceptNodes_eq (cs : List Concept) :
    conceptNodes cs
      = (conceptNames cs).map (fun nm => ⟨"concept::" ++ nm, nm⟩) := by
  unfold conceptNodes conceptNames
  rw [List.map_map]
  rfl

theorem nodup_conceptNodes (cs : List Concept)
    (h : (conceptNames cs).Nodup) : (conceptNodes cs).Nodup := by
  rw [conceptNodes_eq]
  exact h.map (fun a b hab => congrArg GNode.label hab)

theorem length_conceptNodes (cs : List Concept) :
    (conceptNodes cs).length = cs.length := by
  unfold conceptNodes
  exact List.length_map cs _

theorem mem_conceptNodes (cs : List Concept) (n : GNode) :
    n ∈ conceptNodes cs
      ↔ ∃ nm, nm ∈ conceptNames cs ∧ n = ⟨"concept::" ++ nm, nm⟩ := by
  rw [conceptNodes_eq]
  constructor
  · intro hn
    rcases List.mem_map.mp hn with ⟨nm, hnm, rfl⟩
    exact ⟨nm, hnm, rfl⟩
  · rintro ⟨nm, hnm, rfl⟩
    exact List.mem_map.mpr ⟨nm, hnm, rfl⟩

theorem domainStrandEdges_eq (cs : List Concept) :
    domainStrandEdges cs
      = ((buildDomains cs).flatMap (fun p => p.2.map (fun s => (p.1, s)))).map
          (fun q => ⟨"domain::" ++ q.1, "strand::" ++ q.2⟩) := by
  unfold domainStrandEdges
  rw [List.map_flatMap]
  simp only [List.map_map]
  rfl

theorem nodup_domainStrandEdges (cs : List Concept) :
    (domainStrandEdges cs).Nodup := by
  rw [domainStrandEdges_eq]
  refine (nodup_pairList (buildDomains cs) (nodup_keys_buildDomains cs)
    (values_nodup_buildDomains cs)).map ?_
  rintro ⟨a1, a2⟩ ⟨b1, b2⟩ hab
  have h1 := congrArg GEdge.source hab
  have h2 := congrArg GEdge.target hab
  simp only at h1 h2
  rw [Prod.mk.injEq]
  exact ⟨string_append_left_inj _ h1, string_append_left_inj _ h2⟩

theorem mem_domainStrandEdges (cs : List Concept) (e : GEdge) :
    e ∈ domainStrandEdges cs
      ↔ ∃ c ∈ cs, e = ⟨"domain::" ++ c.domain, "strand::" ++ c.strand⟩ := by
  rw [domainStrandEdges_eq]
  constructor
  · intro he
    rcases List.mem_map.mp he with ⟨q, hq, rfl⟩
    rcases List.mem_flatMap.mp hq with ⟨p, hp, hqp⟩
    rcases List.mem_map.mp hqp with ⟨s, hs, rfl⟩
    have hent : ∃ v, (p.1, v) ∈ buildDomains cs ∧ s ∈ v := ⟨p.2, by simpa using hp, hs⟩
    rcases (mem_entry_buildDomains cs p.1 s).mp hent with ⟨c, hc, hcd, hcs⟩
    exact ⟨c, hc, by rw [hcd, hcs]⟩
  · rintro ⟨c, hc, rfl⟩
    rcases (mem_entry_buildDomains cs c.domain c.strand).mpr
      ⟨c, hc, rfl, rfl⟩ with ⟨v, hv, hs⟩
    refine List.mem_map.mpr ⟨(c.domain, c.strand), ?_, rfl⟩
    exact List.mem_flatMap.mpr ⟨(c.domain, v), hv, List.mem_map.mpr ⟨c.strand, hs, rfl⟩⟩

theorem strandConceptEdges_target_eq (cs : List Concept) :
    (strandConceptEdges cs).map GEdge.target
      = ((buildStrands cs).flatMap Prod.snd).map (fun n => "concept::" ++ n) := by
  unfold strandConceptEdges
  rw [List.map_flatMap, List.map_flatMap]
  simp only [List.map_map]
  rfl

theorem nodup_strandConceptEdges (cs : List Concept)
    (h : (conceptNames cs).Nodup) : (strandConceptEdges cs).Nodup := by
  apply List.Nodup.of_map GEdge.target
  rw [strandConceptEdges_target_eq]
  exact (nodup_valuesFlat_buildStrands cs h).map
    (fun a b hab => string_append_left_inj _ hab)

theorem mem_strandConceptEdges (cs : List Concept) (e : GEdge) :
    e ∈ strandConceptEdges cs
      ↔ ∃ c ∈ cs, e = ⟨"strand::" ++ c.strand, "concept::" ++ c.concept_name⟩ := by
  unfold strandConceptEdges
  constructor
  · intro he
    rcases List.mem_flatMap.mp he with ⟨p, hp, hep⟩
    rcases List.mem_map.mp hep with ⟨n, hn, rfl⟩
    have hent : ∃ v, ((p.1.1, p.1.2), v) ∈ buildStrands cs ∧ n ∈ v :=
      ⟨p.2, by simpa using hp, hn⟩
    rcases (mem_entry_buildStrands cs p.1.1 p.1.2 n).mp hent with ⟨c, hc, _, hcs, hcn⟩
    exact ⟨c, hc, by rw [hcs, hcn]⟩
  · rintro ⟨c, hc, rfl⟩
    rcases (mem_entry_buildStrands cs c.domain c.strand c.concept_name).mpr
      ⟨c, hc, rfl, rfl, rfl⟩ with ⟨v, hv, hn⟩
    exact List.mem_flatMap.mpr
      ⟨((c.domain, c.strand), v), hv, List.mem_map.mpr ⟨c.concept_name, hn, rfl⟩⟩

theorem mem_value_buildStrands_names (cs : List Concept)
    (p : (String × String) × List String) (n : String)
    (hp : p ∈ buildStrands cs) (hn : n ∈ p.2) : n ∈ conceptNames cs := by
  rcases p with ⟨⟨d, s⟩, v⟩
  rcases (mem_entry_buildStrands cs d s n).mp ⟨v, hp, hn⟩ with ⟨c, hc, _, _, hcn⟩
  exact List.mem_map.mpr ⟨c, hc, hcn⟩

/-! Claim C4. -/

/-- Claim C4: for every loaded concept list (with the data model's
unique-name invariant) the builder emits exactly one node per distinct
domain, one node per distinct (domain, strand) pair, and one node per
concept; node identifiers are disjoint across the three tiers thanks to the
tier markers, so a domain and a concept never collide even if they share a
display name; and there is exactly one tree edge from each domain to each
of its strands and one from each strand to each of its concepts. -/
theorem C4_graph_shape (cs : List Concept) (h : (conceptNames cs).Nodup) :
    ((domainNodes cs).Nodup
      ∧ ∀ n, n ∈ domainNodes cs
          ↔ ∃ d, d ∈ cs.map Concept.domain ∧ n = ⟨"domain::" ++ d, d⟩)
    ∧ ((strandNodes cs).length
        = ((cs.map (fun c => (c.domain, c.strand))).dedup).length
      ∧ ∀ n, n ∈ strandNodes cs
          ↔ ∃ p, p ∈ cs.map (fun c => (c.domain, c.strand))
              ∧ n = ⟨"strand::" ++ p.2, p.2⟩)
    ∧ ((conceptNodes cs).Nodup ∧ (conceptNodes cs).length = cs.length
      ∧ ∀ n, n ∈ conceptNodes cs
          ↔ ∃ nm, nm ∈ conceptNames cs ∧ n = ⟨"concept::" ++ nm, nm⟩)
    ∧ (∀ n1 ∈ domainNodes cs, ∀ n2 ∈ strandNodes cs, n1.id ≠ n2.id)
    ∧ (∀ n1 ∈ domainNodes cs, ∀ n2 ∈ conceptNodes cs, n1.id ≠ n2.id)
    ∧ (∀ n1 ∈ strandNodes cs, ∀ n2 ∈ conceptNodes cs, n1.id ≠ n2.id)
    ∧ ((domainStrandEdges cs).Nodup
      ∧ ∀ e, e ∈ domainStrandEdges cs
          ↔ ∃ c ∈ cs, e = ⟨"domain::" ++ c.domain, "strand::" ++ c.strand⟩)
    ∧ ((strandConceptEdges cs).Nodup
      ∧ ∀ e, e ∈ strandConceptEdges cs
          ↔ ∃ c ∈ cs, e = ⟨"strand::" ++ c.strand, "concept::" ++ c.concept_name⟩) := by
  refine ⟨⟨nodup_domainNodes cs, mem_domainNodes cs⟩,
    ⟨length_strandNodes cs, mem_strandNodes cs⟩,
    ⟨nodup_conceptNodes cs h, length_conceptNodes cs, mem_conceptNodes cs⟩,
    ?_, ?_, ?_,
    ⟨nodup_domainStrandEdges cs, mem_domainStrandEdges cs⟩,
    ⟨nodup_strandConceptEdges cs h, mem_strandConceptEdges cs⟩⟩
  · intro n1 h1 n2 h2
    rcases (mem_domainNodes cs n1).mp h1 with ⟨d, _, rfl⟩
    rcases (mem_strandNodes cs n2).mp h2 with ⟨p, _, rfl⟩
    exact domain_id_ne_strand_id d p.2
  · intro n1 h1 n2 h2
    rcases (mem_domainNodes cs n1).mp h1 with ⟨d, _, rfl⟩
    rcases (mem_conceptNodes cs n2).mp h2 with ⟨nm, _, rfl⟩
    exact domain_id_ne_concept_id d nm
  · intro n1 h1 n2 h2
    rcases (mem_strandNodes cs n1).mp h1 with ⟨p, _, rfl⟩
    rcases (mem_conceptNodes cs n2).mp h2 with ⟨nm, _, rfl⟩
    exact strand_id_ne_concept_id p.2 nm

/-- Claim C4, witness: on a one-concept curriculum the domain node tier has
no duplicates. -/
theorem C4_witness : (domainNodes [⟨"A", "D", "S", []⟩]).Nodup :=
  (C4_graph_shape [⟨"A", "D", "S", []⟩] (by decide)).1.1

/-! Claim C5. -/

/-- Claim C5: for every interconnection (A, B) declared on concept A, a
lateral edge from A's node to B's node is produced exactly when B is a
known concept name of the current grade; when B does not resolve, no edge of
the whole edge list references B's node id, and the builder is a total
function so no error is raised. -/
theorem C5_lateral_edges (cs : List Concept) (A : Concept) (B : String)
    (hA : A ∈ cs) (hB : B ∈ A.interconnections) :
    (((⟨"concept::" ++ A.concept_name, "concept::" ++ B⟩ : GEdge) ∈ lateralEdges cs)
      ↔ B ∈ conceptNames cs)
    ∧ (B ∉ conceptNames cs →
        ∀ e ∈ buildEdges cs,
          e.source ≠ "concept::" ++ B ∧ e.target ≠ "concept::" ++ B) := by
  constructor
  · constructor
    · intro he
      unfold lateralEdges at he
      rcases List.mem_flatMap.mp he with ⟨c, _, hec⟩
      rcases List.mem_map.mp hec with ⟨l, hl, hel⟩
      have hfl := List.mem_filter.mp hl
      have hln : l ∈ conceptNames cs := by simpa using hfl.2
      have ht := congrArg GEdge.target hel
      simp only at ht
      have hlB : l = B := string_append_left_inj _ ht
      exact hlB ▸ hln
    · intro hBn
      unfold lateralEdges
      refine List.mem_flatMap.mpr ⟨A, hA, ?_⟩
      refine List.mem_map.mpr ⟨B, ?_, rfl⟩
      exact List.mem_filter.mpr ⟨hB, by simpa using hBn⟩
  · intro hBn e he
    unfold buildEdges at he
    rcases List.mem_append.mp he with he' | he''
    · rcases List.mem_append.mp he' with hds | hsc
      · rcases (mem_domainStrandEdges cs e).mp hds with ⟨c, _, rfl⟩
        exact ⟨domain_id_ne_concept_id c.domain B, strand_id_ne_concept_id c.strand B⟩
      · rcases (mem_strandConceptEdges cs e).mp hsc with ⟨c, hc, rfl⟩
        refine ⟨strand_id_ne_concept_id c.strand B, ?_⟩
        intro ht
        have hcb : c.concept_name = B := string_append_left_inj _ ht
        exact hBn (hcb ▸ List.mem_map.mpr ⟨c, hc, rfl⟩)
    · unfold lateralEdges at he''
      rcases List.mem_flatMap.mp he'' with ⟨c, hc, hec⟩
      rcases List.mem_map.mp hec with ⟨l, hl, rfl⟩
      have hfl := List.mem_filter.mp hl
      have hln : l ∈ conceptNames cs := by simpa using hfl.2
      constructor
      · intro hsrc
        have hcb : c.concept_name = B := string_append_left_inj _ hsrc
        exact hBn (hcb ▸ List.mem_map.mpr ⟨c, hc, rfl⟩)
      · intro htgt
        have hlB : l = B := string_append_left_inj _ htgt
        exact hBn (hlB ▸ hln)

/-- Claim C5, witness: a resolving interconnection produces its lateral
edge. -/
theorem C5_witness :
    (⟨"concept::" ++ "A", "concept::" ++ "B"⟩ : GEdge)
      ∈ lateralEdges [⟨"A", "D", "S", ["B"]⟩, ⟨"B", "D", "S", []⟩] :=
  ((C5_lateral_edges [⟨"A", "D", "S", ["B"]⟩, ⟨"B", "D", "S", []⟩]
    ⟨"A", "D", "S", ["B"]⟩ "B" (by decide) (by decide)).1).mpr (by decide)

end KG
